import Mathlib

/-!
Verification of the line-diff utility (src/file_diff_gui.py).

Lines of text are modelled as lists of characters.  The normalizer
(`normalize_lines`) is translated directly from the source.  The differ is
Python's `difflib.ndiff`, invoked at src/file_diff_gui.py:138 but not part of
this repository; it is modelled from the spec (§4.2) following the reference
ndiff algorithm shape the spec prescribes (line-level longest-match block
decomposition, a ratio-of-matching-characters cutoff of 0.75 below which no
intraline hint is emitted, deterministic tie-breaking).  Floating-point
similarity ratios are modelled as exact rationals (integer cross
multiplication).
-/

namespace FileDiff

/-- A line of text: an ordered list of characters. -/
abbrev Str := List Char

/-- View of a Lean string literal as a character list. -/
def pstr (s : String) : Str := s.data

/-- Whitespace test modelling Python's notion of whitespace as used by
`str.split()` and `str.isspace()` (ASCII whitespace characters; the claims
depend only on both sides of each theorem using the same predicate). -/
def isPySpace (c : Char) : Bool :=
  c == ' ' || c == '\t' || c == '\n' || c == '\r' || c == '\x0b' || c == '\x0c'

/-- Model of Python `s.split()` (split on whitespace runs, no empty words),
as called in `normalize_lines` (src/file_diff_gui.py:19). -/
def pyWords : Str → List Str
  | [] => []
  | c :: rest =>
    if isPySpace c then pyWords rest
    else (c :: rest.takeWhile (fun d => !isPySpace d)) ::
         pyWords (rest.dropWhile (fun d => !isPySpace d))
termination_by s => s.length
decreasing_by
  all_goals simp only [List.length_cons]
  · omega
  · have h : (rest.dropWhile (fun d => !isPySpace d)).length ≤ rest.length :=
      (List.dropWhile_suffix _).length_le
    omega

/-- Model of Python `" ".join(ws)` on a list of words. -/
def joinSp : List Str → Str
  | [] => []
  | [w] => w
  | w :: ws => w ++ ' ' :: joinSp ws

/-- Modelled from the spec: the platform Unicode case-folding table used by
Python's `str.casefold` (called at src/file_diff_gui.py:21; the folding
routine itself is not part of this repository).  The table covers the ASCII
letters plus representative non-ASCII full foldings (sharp s to "ss", micro
sign to Greek mu, final/capital sigma to sigma, dotted capital I to i plus
combining dot, long s to s, Kelvin sign to k); characters outside the table
fold to themselves. -/
def foldTable : List (Char × Str) :=
  [('A', ['a']), ('B', ['b']), ('C', ['c']), ('D', ['d']), ('E', ['e']),
   ('F', ['f']), ('G', ['g']), ('H', ['h']), ('I', ['i']), ('J', ['j']),
   ('K', ['k']), ('L', ['l']), ('M', ['m']), ('N', ['n']), ('O', ['o']),
   ('P', ['p']), ('Q', ['q']), ('R', ['r']), ('S', ['s']), ('T', ['t']),
   ('U', ['u']), ('V', ['v']), ('W', ['w']), ('X', ['x']), ('Y', ['y']),
   ('Z', ['z']),
   ('ß', ['s', 's']), ('ẞ', ['s', 's']), ('µ', ['μ']),
   ('Σ', ['σ']), ('ς', ['σ']), ('İ', ['i', '̇']), ('ſ', ['s']),
   (Char.ofNat 0x212a, ['k'])]

/-- Full case folding of one character (see `foldTable`). -/
def foldChar (c : Char) : Str :=
  match foldTable.find? (fun p => p.1 == c) with
  | some p => p.2
  | none => [c]

/-- Model of Python `s.casefold()`: full case folding, character by
character. -/
def caseFold (s : Str) : Str := (s.map foldChar).flatten

/-- Embeds the per-line body of `normalize_lines`
(src/file_diff_gui.py:16-22): optionally collapse whitespace with
`" ".join(s.split())`, then optionally case-fold. -/
def normalize_line (line : Str) (ignore_case ignore_ws : Bool) : Str :=
  let s := line
  let s := if ignore_ws then joinSp (pyWords s) else s
  if ignore_case then caseFold s else s

/-- Embeds `normalize_lines` (src/file_diff_gui.py:14-23). -/
def normalize_lines (lines : List Str) (ignore_case ignore_ws : Bool) : List Str :=
  lines.map (fun line => normalize_line line ignore_case ignore_ws)

section Matcher

variable {α : Type} [DecidableEq α]

/-- Whether positions `i` of `a` and `j` of `b` hold equal elements. -/
def cellEq (a b : List α) (i j : Nat) : Bool :=
  match a.get? i, b.get? j with
  | some x, some y => decide (x = y)
  | _, _ => false

/-- Length of the run of pairwise-equal elements ending at cell `(i, j)`,
clipped to the window starting at `(alo, blo)` (the `j2len` dynamic program
of the reference block matcher). -/
def runLen (a b : List α) (alo blo : Nat) : Nat → Nat → Nat
  | 0, j => if cellEq a b 0 j then 1 else 0
  | i + 1, j =>
    if cellEq a b (i + 1) j then
      if alo < i + 1 ∧ blo < j then runLen a b alo blo i (j - 1) + 1 else 1
    else 0

/-- One update of the longest-match scan: a strictly longer run ending at
`(i, j)` replaces the current best block. -/
def flmStep (a b : List α) (alo blo : Nat) (st : Nat × Nat × Nat) (i j : Nat) :
    Nat × Nat × Nat :=
  let k := runLen a b alo blo i j
  if st.2.2 < k then (i + 1 - k, j + 1 - k, k) else st

/-- Modelled from the spec: the longest matching block of the window
`[alo, ahi) x [blo, bhi)` (reference block matcher; rows scanned in
ascending order, columns in ascending order, strict improvement only, so the
earliest maximal block wins). -/
def find_longest_match (a b : List α) (alo ahi blo bhi : Nat) : Nat × Nat × Nat :=
  (List.range' alo (ahi - alo)).foldl
    (fun st i =>
      (List.range' blo (bhi - blo)).foldl (fun st j => flmStep a b alo blo st i j) st)
    (alo, blo, 0)

/-- Modelled from the spec: recursive block decomposition (find the longest
match, recurse into the gaps on both sides).  `fuel` bounds the recursion
depth; the top-level call supplies more than enough. -/
def get_matching_blocks_aux (a b : List α) :
    Nat → Nat → Nat → Nat → Nat → List (Nat × Nat × Nat)
  | 0, _, _, _, _ => []
  | fuel + 1, alo, ahi, blo, bhi =>
    let m := find_longest_match a b alo ahi blo bhi
    if m.2.2 = 0 then []
    else
      get_matching_blocks_aux a b fuel alo m.1 blo m.2.1 ++
        m :: get_matching_blocks_aux a b fuel (m.1 + m.2.2) ahi (m.2.1 + m.2.2) bhi

/-- Merge adjacent matching blocks (reference behavior). -/
def mergeBlocks : Nat × Nat × Nat → List (Nat × Nat × Nat) → List (Nat × Nat × Nat)
  | acc, [] => if acc.2.2 = 0 then [] else [acc]
  | acc, m :: rest =>
    if acc.1 + acc.2.2 = m.1 ∧ acc.2.1 + acc.2.2 = m.2.1 then
      mergeBlocks (acc.1, acc.2.1, acc.2.2 + m.2.2) rest
    else (if acc.2.2 = 0 then [] else [acc]) ++ mergeBlocks m rest

/-- Modelled from the spec: the full ordered list of matching blocks,
terminated by the zero-length sentinel block. -/
def get_matching_blocks (a b : List α) : List (Nat × Nat × Nat) :=
  mergeBlocks (0, 0, 0)
      (get_matching_blocks_aux a b (a.length + b.length + 1) 0 a.length 0 b.length) ++
    [(a.length, b.length, 0)]

/-- Edit operation tags of the block matcher. -/
inductive OpTag
  | replace
  | delete
  | insert
  | equal
deriving DecidableEq

/-- Opcodes from matching blocks: each gap between consecutive blocks becomes
a replace/delete/insert opcode, each block an equal opcode. -/
def get_opcodes_aux : Nat → Nat → List (Nat × Nat × Nat) →
    List (OpTag × Nat × Nat × Nat × Nat)
  | _, _, [] => []
  | i, j, m :: rest =>
    (if i < m.1 ∧ j < m.2.1 then [(OpTag.replace, i, m.1, j, m.2.1)]
     else if i < m.1 then [(OpTag.delete, i, m.1, j, m.2.1)]
     else if j < m.2.1 then [(OpTag.insert, i, m.1, j, m.2.1)]
     else []) ++
    (if m.2.2 ≠ 0 then [(OpTag.equal, m.1, m.1 + m.2.2, m.2.1, m.2.1 + m.2.2)]
     else []) ++
    get_opcodes_aux (m.1 + m.2.2) (m.2.1 + m.2.2) rest

/-- Modelled from the spec: the ordered opcode list describing the minimal
edit alignment of `a` and `b`. -/
def get_opcodes (a b : List α) : List (OpTag × Nat × Nat × Nat × Nat) :=
  get_opcodes_aux 0 0 (get_matching_blocks a b)

end Matcher

/-- Total number of matching characters between two lines (the `M` of the
similarity ratio `2 * M / T`). -/
def matchTotal (a b : Str) : Nat :=
  ((get_matching_blocks a b).map (fun m => m.2.2)).sum

/-- Emit the lines of `x[lo:hi]`, each prefixed by the tag character and a
space. -/
def dumpTag (t : Char) (x : List Str) (lo hi : Nat) : List Str :=
  ((x.drop lo).take (hi - lo)).map (fun s => t :: ' ' :: s)

/-- Modelled from the spec: an unrelated delete+insert block (no pair of
lines similar enough); the shorter side is emitted first. -/
def plain_replace (a b : List Str) (alo ahi blo bhi : Nat) : List Str :=
  if bhi - blo < ahi - alo then dumpTag '+' b blo bhi ++ dumpTag '-' a alo ahi
  else dumpTag '-' a alo ahi ++ dumpTag '+' b blo bhi

/-- State of the search for the most similar line pair in a replace block:
the first identical pair seen, and the best non-identical pair so far with
its similarity ratio `num / den` (initially the 0.74 floor). -/
structure FancyBest where
  eqPair : Option (Nat × Nat)
  num : Nat
  den : Nat
  bi : Nat
  bj : Nat

/-- One step of the similar-pair search at cell `(i, j)`: identical lines are
remembered once, a non-identical pair replaces the best when its ratio
`2 * M / T` strictly exceeds the current one (exact arithmetic). -/
def fancyStep (a b : List Str) (st : FancyBest) (i j : Nat) : FancyBest :=
  let ai := (a.get? i).getD []
  let bj := (b.get? j).getD []
  if ai = bj then
    if st.eqPair.isNone then { st with eqPair := some (i, j) } else st
  else
    let M := matchTotal ai bj
    let T := ai.length + bj.length
    if st.num * T < 2 * M * st.den then ⟨st.eqPair, 2 * M, T, i, j⟩ else st

/-- Modelled from the spec: scan the replace window for the most similar
line pair (columns outer, rows inner, as in the reference algorithm). -/
def fancyScan (a b : List Str) (alo ahi blo bhi : Nat) : FancyBest :=
  (List.range' blo (bhi - blo)).foldl
    (fun st j =>
      (List.range' alo (ahi - alo)).foldl (fun st i => fancyStep a b st i j) st)
    ⟨none, 74, 100, alo, blo⟩

/-- Build the intraline hint tag strings from the character-level opcodes of
a close pair. -/
def pairTags (aelt belt : Str) : Str × Str :=
  (get_opcodes aelt belt).foldl
    (fun ab op =>
      match op with
      | (OpTag.replace, a1, a2, b1, b2) =>
        (ab.1 ++ List.replicate (a2 - a1) '^', ab.2 ++ List.replicate (b2 - b1) '^')
      | (OpTag.delete, a1, a2, _, _) =>
        (ab.1 ++ List.replicate (a2 - a1) '-', ab.2)
      | (OpTag.insert, _, _, b1, b2) =>
        (ab.1, ab.2 ++ List.replicate (b2 - b1) '+')
      | (OpTag.equal, a1, a2, b1, b2) =>
        (ab.1 ++ List.replicate (a2 - a1) ' ', ab.2 ++ List.replicate (b2 - b1) ' '))
    ([], [])

/-- Keep original whitespace under blank tag positions (reference helper). -/
def keep_original_ws (s tags : Str) : Str :=
  (s.zip tags).map (fun p => if p.2 = ' ' ∧ isPySpace p.1 then p.1 else p.2)

/-- Strip trailing whitespace. -/
def rstripWs (s : Str) : Str := (s.reverse.dropWhile isPySpace).reverse

/-- Emit a close deletion/insertion pair with its intraline hint lines
(hint lines carry a trailing newline, as the reference formatter appends
one). -/
def qformat (aelt belt atags btags : Str) : List Str :=
  let ta := rstripWs (keep_original_ws aelt atags)
  let tb := rstripWs (keep_original_ws belt btags)
  [['-', ' '] ++ aelt] ++
  (if ta ≠ [] then [['?', ' '] ++ ta ++ ['\n']] else []) ++
  [['+', ' '] ++ belt] ++
  (if tb ≠ [] then [['?', ' '] ++ tb ++ ['\n']] else [])

/-- Modelled from the spec: the mutually recursive replace/gap handling of
the reference differ, combined into one fuel-indexed function (`helper`
false selects the replace handler, true the gap dispatcher).  Replace
handler: when some non-identical pair has ratio at least the 0.75 cutoff,
synch on the best such pair and emit it with intraline hints; otherwise
synch on the first identical pair (emitted as context) or, with no
identical pair, fall back to a plain delete+insert block.  Gap dispatcher:
dump one-sided gaps, recurse on two-sided ones. -/
def fancyLoop (a b : List Str) : Nat → Bool → Nat → Nat → Nat → Nat → List Str
  | 0, _, _, _, _, _ => []
  | fuel + 1, helper, alo, ahi, blo, bhi =>
    if helper then
      if alo < ahi then
        if blo < bhi then fancyLoop a b fuel false alo ahi blo bhi
        else dumpTag '-' a alo ahi
      else if blo < bhi then dumpTag '+' b blo bhi
      else []
    else
      let st := fancyScan a b alo ahi blo bhi
      if 4 * st.num < 3 * st.den then
        st.eqPair.elim (plain_replace a b alo ahi blo bhi) (fun p =>
          fancyLoop a b fuel true alo p.1 blo p.2 ++
            ([' ', ' '] ++ (a.get? p.1).getD []) ::
              fancyLoop a b fuel true (p.1 + 1) ahi (p.2 + 1) bhi)
      else
        let aelt := (a.get? st.bi).getD []
        let belt := (b.get? st.bj).getD []
        let tg := pairTags aelt belt
        fancyLoop a b fuel true alo st.bi blo st.bj ++
          qformat aelt belt tg.1 tg.2 ++
          fancyLoop a b fuel true (st.bi + 1) ahi (st.bj + 1) bhi

/-- Modelled from the spec: handle a replace block (see `fancyLoop`). -/
def fancy_replace (a b : List Str) (fuel alo ahi blo bhi : Nat) : List Str :=
  fancyLoop a b fuel false alo ahi blo bhi

/-- Modelled from the spec: the Differ, `diff(a, b)` (realized by Python's
`difflib.ndiff`, called at src/file_diff_gui.py:138 and not part of this
repository).  Produces the tagged edit lines: two-character prefixes
"  " (context), "- " (deletion), "+ " (insertion), "? " (intraline hint). -/
def ndiff (a b : List Str) : List Str :=
  (get_opcodes a b).foldr
    (fun op acc =>
      (match op with
       | (OpTag.replace, alo, ahi, blo, bhi) =>
         fancy_replace a b (2 * (a.length + b.length) + 4) alo ahi blo bhi
       | (OpTag.delete, alo, ahi, _, _) => dumpTag '-' a alo ahi
       | (OpTag.insert, _, _, blo, bhi) => dumpTag '+' b blo bhi
       | (OpTag.equal, alo, ahi, _, _) => dumpTag ' ' a alo ahi) ++ acc)
    []

/-- Embeds the diff-line construction of `DiffGUI.compare`
(src/file_diff_gui.py:133-163): both inputs are normalized with the active
options, the normalized sequences are diffed, and each produced line plus a
newline is stored in `last_diff_lines` (the list later rendered and saved). -/
def last_diff_lines (lines1 lines2 : List Str) (ignore_case ignore_ws : Bool) :
    List Str :=
  (ndiff (normalize_lines lines1 ignore_case ignore_ws)
      (normalize_lines lines2 ignore_case ignore_ws)).map
    (fun line => line ++ ['\n'])

/-- Embeds the `added` counter of `DiffGUI.compare` (src/file_diff_gui.py:141). -/
def countAdded (diff : List Str) : Nat :=
  (diff.filter (fun l => ['+', ' '].isPrefixOf l)).length

/-- Embeds the `removed` counter of `DiffGUI.compare` (src/file_diff_gui.py:142). -/
def countRemoved (diff : List Str) : Nat :=
  (diff.filter (fun l => ['-', ' '].isPrefixOf l)).length

/-- Embeds the `changed_hints` counter of `DiffGUI.compare` (src/file_diff_gui.py:143). -/
def countHints (diff : List Str) : Nat :=
  (diff.filter (fun l => ['?', ' '].isPrefixOf l)).length

/-- The GUI state touched by `DiffGUI.save_diff`: the stored diff lines and
the status text. -/
structure GuiState where
  last_diff : List Str
  status : Str
deriving DecidableEq

/-- User-visible dialog boxes. -/
inductive Dialog
  | info (title msg : Str)
  | error (title msg : Str)
deriving DecidableEq

/-- Embeds `DiffGUI.save_diff` (src/file_diff_gui.py:169-184).  The file
dialog result and the file-system write outcome are inputs (the write is
modelled as an atomic success/failure).  Returns the new state and the
dialogs shown. -/
def save_diff (st : GuiState) (chosen : Option Str) (writeOk : Bool) :
    GuiState × List Dialog :=
  if st.last_diff = [] then
    (st, [Dialog.info (pstr "No diff") (pstr "Nothing to save. Run a comparison first.")])
  else
    match chosen with
    | none => (st, [])
    | some path =>
      if writeOk then ({ st with status := pstr "Saved diff to " ++ path }, [])
      else (st, [Dialog.error (pstr "Save error") (pstr "Could not save diff")])

/-- Modelled from the spec: replace every maximal run of whitespace
characters with a single space character (§4.1); the flag records whether
the previous character was part of a run already replaced. -/
def squeeze : Bool → Str → Str
  | _, [] => []
  | prev, c :: rest =>
    if isPySpace c then (if prev then squeeze true rest else ' ' :: squeeze true rest)
    else c :: squeeze false rest

/-- Strip leading whitespace. -/
def lstripWs (s : Str) : Str := s.dropWhile isPySpace

/-- Modelled from the spec (§4.1): replace every maximal whitespace run with
a single space and strip leading/trailing whitespace. -/
def specCollapse (s : Str) : Str := rstripWs (lstripWs (squeeze false s))

/-- Modelled from the spec (§4.1): the per-line normalization contract: if
`ignore_ws`, collapse runs and strip ends; if `ignore_case`, fold the result
with the platform case folding. -/
def specNormalizeLine (line : Str) (ignore_case ignore_ws : Bool) : Str :=
  let s := if ignore_ws then specCollapse line else line
  if ignore_case then caseFold s else s

/-- Classification of an edit line by its two-character prefix. -/
inductive RecKind
  | ctx
  | ins
  | del
  | hint
  | other
deriving DecidableEq

/-- Kind of a produced diff line, read off its two-character prefix as the
GUI's startswith tests do. -/
def recKind (s : Str) : RecKind :=
  match s with
  | '+' :: ' ' :: _ => RecKind.ins
  | '-' :: ' ' :: _ => RecKind.del
  | '?' :: ' ' :: _ => RecKind.hint
  | ' ' :: ' ' :: _ => RecKind.ctx
  | _ => RecKind.other

/-- Swap the insertion and deletion kinds. -/
def swapKind : RecKind → RecKind
  | RecKind.ins => RecKind.del
  | RecKind.del => RecKind.ins
  | k => k

/-- The insertion/deletion/context pattern of a diff, with hint records
dropped (the most lenient reading of the symmetry law, which lets hint
markers differ freely). -/
def insDelPattern (d : List Str) : List RecKind :=
  (d.map recKind).filter (fun k => decide (k ≠ RecKind.hint))

/-- Swap the leading deletion/insertion sign of an edit line. -/
def swapSign (s : Str) : Str :=
  match s with
  | '-' :: rest => '+' :: rest
  | '+' :: rest => '-' :: rest
  | s => s

/-- Where the text carried by a produced diff line comes from: every
non-hint line is one of the input lines of `a` (context and deletion
records) or of `b` (insertion records), with its two-character prefix. -/
def lineSource (a b : List Str) (s : Str) : Prop :=
  ['?', ' '].isPrefixOf s = true ∨
  (∃ t ∈ a, s = '-' :: ' ' :: t ∨ s = ' ' :: ' ' :: t) ∨
  (∃ t ∈ b, s = '+' :: ' ' :: t)

/-! ### Generic fold and list lemmas -/

theorem foldl_invariant {β γ : Type} (P : β → Prop) (f : β → γ → β) (l : List γ)
    (init : β) (h0 : P init) (hstep : ∀ st c, c ∈ l → P st → P (f st c)) :
    P (l.foldl f init) := by
  induction l generalizing init with
  | nil => exact h0
  | cons c t ih =>
    exact ih (f init c) (hstep init c (List.mem_cons_self c t) h0)
      (fun st d hd hst => hstep st d (List.mem_cons_of_mem c hd) hst)

theorem foldl_fixed {β γ : Type} (l : List γ) (init : β) :
    l.foldl (fun st _ => st) init = init := by
  induction l generalizing init with
  | nil => rfl
  | cons c t ih => exact ih init

theorem mem_foldr_append {β γ : Type} (f : γ → List β) (l : List γ) (s : β) :
    s ∈ l.foldr (fun op acc => f op ++ acc) [] ↔ ∃ op ∈ l, s ∈ f op := by
  induction l with
  | nil => simp
  | cons c t ih => simp [ih]

theorem prefix_isPrefixOf_append (p l r : Str) (h : p.isPrefixOf l) :
    p.isPrefixOf (l ++ r) := by
  rw [List.isPrefixOf_iff_prefix] at h ⊢
  exact h.trans (List.prefix_append l r)

theorem isPrefixOf_self_append (p t : Str) : p.isPrefixOf (p ++ t) := by
  rw [List.isPrefixOf_iff_prefix]
  exact List.prefix_append p t

/-! ### Dump lemmas -/

theorem mem_dumpTag {t : Char} {x : List Str} {lo hi : Nat} {s : Str}
    (h : s ∈ dumpTag t x lo hi) : ∃ u ∈ x, s = t :: ' ' :: u := by
  unfold dumpTag at h
  obtain ⟨u, hu, rfl⟩ := List.mem_map.mp h
  exact ⟨u, List.drop_subset lo x (List.take_subset _ _ hu), rfl⟩

theorem dumpTag_full (t : Char) (x : List Str) :
    dumpTag t x 0 x.length = x.map (fun s => t :: ' ' :: s) := by
  simp [dumpTag]

/-! ### The longest-match scan on empty windows -/

theorem flm_rows_empty {α : Type} [DecidableEq α] (a b : List α) (alo blo bhi : Nat) :
    find_longest_match a b alo alo blo bhi = (alo, blo, 0) := by
  unfold find_longest_match
  simp [foldl_fixed]

theorem flm_cols_empty {α : Type} [DecidableEq α] (a b : List α) (alo ahi blo : Nat) :
    find_longest_match a b alo ahi blo blo = (alo, blo, 0) := by
  unfold find_longest_match
  simp only [Nat.sub_self, List.range'_zero, List.foldl_nil]
  exact foldl_fixed _ _

theorem get_matching_blocks_aux_k0 {α : Type} [DecidableEq α] (a b : List α)
    (fuel alo ahi blo bhi : Nat)
    (h : (find_longest_match a b alo ahi blo bhi).2.2 = 0) :
    get_matching_blocks_aux a b fuel alo ahi blo bhi = [] := by
  cases fuel with
  | zero => rfl
  | succ n => simp [get_matching_blocks_aux, h]

theorem get_matching_blocks_nil_right {α : Type} [DecidableEq α] (a : List α) :
    get_matching_blocks a ([] : List α) = [(a.length, 0, 0)] := by
  unfold get_matching_blocks
  rw [get_matching_blocks_aux_k0 a [] _ 0 a.length 0 [].length
      (by rw [show ([] : List α).length = 0 from rfl, flm_cols_empty])]
  simp [mergeBlocks]

theorem get_matching_blocks_nil_left {α : Type} [DecidableEq α] (b : List α) :
    get_matching_blocks ([] : List α) b = [(0, b.length, 0)] := by
  unfold get_matching_blocks
  rw [get_matching_blocks_aux_k0 [] b _ 0 [].length 0 b.length
      (by rw [show ([] : List α).length = 0 from rfl, flm_rows_empty])]
  simp [mergeBlocks]

theorem ndiff_nil_right (a : List Str) :
    ndiff a [] = a.map (fun s => '-' :: ' ' :: s) := by
  unfold ndiff get_opcodes
  rw [get_matching_blocks_nil_right]
  by_cases h : 0 < a.length
  · have h0 : ¬ (0 < a.length ∧ 0 < 0) := by omega
    simp only [get_opcodes_aux, h0, if_false, h, if_true, Nat.lt_irrefl,
      ne_eq, not_true_eq_false, ite_false, List.foldr]
    simp [dumpTag_full, dumpTag]
  · have h0 : a.length = 0 := by omega
    have ha : a = [] := List.length_eq_zero.mp h0
    subst ha
    simp [get_opcodes_aux]

theorem ndiff_nil_left (b : List Str) :
    ndiff [] b = b.map (fun s => '+' :: ' ' :: s) := by
  unfold ndiff get_opcodes
  rw [get_matching_blocks_nil_left]
  by_cases h : 0 < b.length
  · have h0 : ¬ ((0 : Nat) < 0 ∧ 0 < b.length) := by omega
    simp only [get_opcodes_aux, h0, if_false, Nat.lt_irrefl, h, if_true,
      ne_eq, not_true_eq_false, ite_false, List.foldr]
    simp [dumpTag_full, dumpTag]
  · have h0 : b.length = 0 := by omega
    have hb : b = [] := List.length_eq_zero.mp h0
    subst hb
    simp [get_opcodes_aux]

/-! ### Claim theorems: normalizer basics -/

/-- C10: with both flags disabled the normalizer is the identity, so the
default comparison is over the exact original lines. -/
theorem normalize_default_identity (L : List Str) :
    normalize_lines L false false = L := by
  simp [normalize_lines, normalize_line]

/-- C3: the normalizer always succeeds (it is a total pure function in this
embedding), preserves the length and order of the input (it is an
elementwise map), and returns the empty sequence on empty input. -/
theorem normalize_total_and_length (L : List Str) (ic iw : Bool) :
    (normalize_lines L ic iw).length = L.length ∧
    normalize_lines ([] : List Str) ic iw = [] ∧
    normalize_lines L ic iw = L.map (fun line => normalize_line line ic iw) := by
  refine ⟨?_, rfl, rfl⟩
  simp [normalize_lines]

/-- C7: for a = ["a","b","c"], b = ["a","x","c"], where "b" and "x" share no
characters, the diff is a deletion of "b" and an insertion of "x" with no
hint record, and the character-match ratio of the pair is below the 0.75
threshold (2*M/T < 3/4 with M = 0). -/
theorem diff_dissimilar_no_hint :
    ndiff [pstr "a", pstr "b", pstr "c"] [pstr "a", pstr "x", pstr "c"] =
      [pstr "  a", pstr "- b", pstr "+ x", pstr "  c"] ∧
    countRemoved (ndiff [pstr "a", pstr "b", pstr "c"] [pstr "a", pstr "x", pstr "c"]) = 1 ∧
    countAdded (ndiff [pstr "a", pstr "b", pstr "c"] [pstr "a", pstr "x", pstr "c"]) = 1 ∧
    countHints (ndiff [pstr "a", pstr "b", pstr "c"] [pstr "a", pstr "x", pstr "c"]) = 0 ∧
    4 * (2 * matchTotal (pstr "b") (pstr "x")) <
      3 * ((pstr "b").length + (pstr "x").length) := by
  decide

/-- C9: when saving fails (or whatever the dialog and write outcomes are),
the stored diff lines are never modified; on a write failure the whole
state is unchanged and exactly one error dialog is reported. -/
theorem save_failure_preserves_state (st : GuiState) (chosen : Option Str)
    (ok : Bool) (path : Str) (h : st.last_diff ≠ []) :
    (save_diff st chosen ok).1.last_diff = st.last_diff ∧
    (save_diff st (some path) false).1 = st ∧
    (save_diff st (some path) false).2 =
      [Dialog.error (pstr "Save error") (pstr "Could not save diff")] := by
  refine ⟨?_, ?_, ?_⟩
  · unfold save_diff
    split
    · rfl
    · cases chosen with
      | none => rfl
      | some p =>
        dsimp only
        split <;> rfl
  · simp [save_diff, h]
  · simp [save_diff, h]

/-! ### Identity behavior of the block matcher -/

section SelfMatch

variable {α : Type} [DecidableEq α]

theorem runLen_le_row (a b : List α) (alo blo : Nat) :
    ∀ i j, alo ≤ i → runLen a b alo blo i j ≤ i + 1 - alo := by
  intro i
  induction i with
  | zero =>
    intro j h
    simp only [runLen]
    split <;> omega
  | succ i ih =>
    intro j h
    simp only [runLen]
    split
    · split
      · rename_i hc
        have := ih (j - 1) (by omega)
        omega
      · omega
    · omega

theorem runLen_le_col (a b : List α) (alo blo : Nat) :
    ∀ i j, blo ≤ j → runLen a b alo blo i j ≤ j + 1 - blo := by
  intro i
  induction i with
  | zero =>
    intro j h
    simp only [runLen]
    split <;> omega
  | succ i ih =>
    intro j h
    simp only [runLen]
    split
    · split
      · rename_i hc
        have := ih (j - 1) (by omega)
        omega
      · omega
    · omega

theorem cellEq_self (a : List α) (i : Nat) (h : i < a.length) :
    cellEq a a i i = true := by
  unfold cellEq
  rw [List.get?_eq_get h]
  simp

theorem runLen_diag (a : List α) (lo : Nat) :
    ∀ i, lo ≤ i → i < a.length → runLen a a lo lo i i = i - lo + 1 := by
  intro i
  induction i with
  | zero =>
    intro h hlen
    simp only [runLen, cellEq_self a 0 hlen, if_true]
    omega
  | succ i ih =>
    intro h hlen
    simp only [runLen, cellEq_self a (i + 1) hlen, if_true]
    by_cases hlo : lo < i + 1
    · rw [if_pos ⟨hlo, hlo⟩]
      simp only [Nat.add_sub_cancel]
      rw [ih (by omega) (by omega)]
      omega
    · rw [if_neg (by omega)]
      omega

theorem flmStep_lt (a b : List α) (alo blo : Nat) (st : Nat × Nat × Nat) (i j K : Nat)
    (h1 : st.2.2 < K) (h2 : runLen a b alo blo i j < K) :
    (flmStep a b alo blo st i j).2.2 < K := by
  unfold flmStep
  dsimp only
  split
  · exact h2
  · exact h1

theorem flmStep_update (a b : List α) (alo blo : Nat) (st : Nat × Nat × Nat) (i j : Nat)
    (h : st.2.2 < runLen a b alo blo i j) :
    flmStep a b alo blo st i j =
      (i + 1 - runLen a b alo blo i j, j + 1 - runLen a b alo blo i j,
        runLen a b alo blo i j) := by
  unfold flmStep
  dsimp only
  rw [if_pos h]

theorem inner_fold_lt (a b : List α) (alo blo : Nat) (i K : Nat) (cols : List Nat)
    (st : Nat × Nat × Nat) (hst : st.2.2 < K)
    (hc : ∀ j ∈ cols, runLen a b alo blo i j < K) :
    ((cols.foldl (fun st j => flmStep a b alo blo st i j) st)).2.2 < K := by
  apply foldl_invariant (fun st2 : Nat × Nat × Nat => st2.2.2 < K) _ _ _ hst
  intro st2 j hj hst2
  exact flmStep_lt a b alo blo st2 i j K hst2 (hc j hj)

theorem inner_last (a : List α) (lo hi : Nat) (h : hi ≤ a.length) (hlt : lo < hi)
    (cols' : List Nat) (st : Nat × Nat × Nat) (hst : st.2.2 < hi - lo)
    (hc : ∀ j ∈ cols', runLen a a lo lo (hi - 1) j < hi - lo) :
    (cols' ++ [hi - 1]).foldl (fun st j => flmStep a a lo lo st (hi - 1) j) st =
      (lo, lo, hi - lo) := by
  rw [List.foldl_append]
  simp only [List.foldl_cons, List.foldl_nil]
  have hmid :
      ((cols'.foldl (fun st j => flmStep a a lo lo st (hi - 1) j) st)).2.2 < hi - lo :=
    inner_fold_lt a a lo lo (hi - 1) (hi - lo) cols' st hst hc
  have hk : runLen a a lo lo (hi - 1) (hi - 1) = hi - lo := by
    rw [runLen_diag a lo (hi - 1) (by omega) (by omega)]
    omega
  rw [flmStep_update a a lo lo _ (hi - 1) (hi - 1) (by rw [hk]; exact hmid)]
  rw [hk]
  have e : hi - 1 + 1 - (hi - lo) = lo := by omega
  rw [e]

theorem flm_self (a : List α) (lo hi : Nat) (h : hi ≤ a.length) :
    find_longest_match a a lo hi lo hi = (lo, lo, hi - lo) := by
  rcases Nat.lt_or_ge lo hi with hlt | hge
  · have split_rows :
        List.range' lo (hi - lo) = List.range' lo (hi - lo - 1) ++ [hi - 1] := by
      have hsub : hi - lo = (hi - lo - 1) + 1 := by omega
      conv_lhs => rw [hsub]
      rw [List.range'_concat]
      have e : lo + 1 * (hi - lo - 1) = hi - 1 := by omega
      rw [e]
    unfold find_longest_match
    rw [split_rows]
    rw [List.foldl_append]
    simp only [List.foldl_cons, List.foldl_nil]
    have hmidrow :
        ((List.range' lo (hi - lo - 1)).foldl
          (fun st i =>
            (List.range' lo (hi - lo - 1) ++ [hi - 1]).foldl
              (fun st j => flmStep a a lo lo st i j) st)
          (lo, lo, 0)).2.2 < hi - lo := by
      apply foldl_invariant (fun st2 : Nat × Nat × Nat => st2.2.2 < hi - lo)
      · dsimp only
        omega
      · intro st i hi' hst
        have hmem := List.mem_range'_1.mp hi'
        apply inner_fold_lt a a lo lo i (hi - lo) _ st hst
        intro j hj
        have := runLen_le_row a a lo lo i j (by omega)
        omega
    apply inner_last a lo hi h hlt _ _ hmidrow
    intro j hj
    have hmem := List.mem_range'_1.mp hj
    have := runLen_le_col a a lo lo (hi - 1) j (by omega)
    omega
  · have h0 : hi - lo = 0 := Nat.sub_eq_zero_of_le hge
    unfold find_longest_match
    rw [h0]
    simp only [List.range'_zero, List.foldl_nil]

theorem get_matching_blocks_self (a : List α) (h : a.length ≠ 0) :
    get_matching_blocks a a = [(0, 0, a.length), (a.length, a.length, 0)] := by
  have h1 : find_longest_match a a 0 a.length 0 a.length = (0, 0, a.length) := by
    have := flm_self a 0 a.length (Nat.le_refl _)
    simpa using this
  have hl : get_matching_blocks_aux a a (a.length + a.length) 0 0 0 0 = [] :=
    get_matching_blocks_aux_k0 a a _ 0 0 0 0 (by rw [flm_rows_empty])
  have hr : get_matching_blocks_aux a a (a.length + a.length)
      a.length a.length a.length a.length = [] :=
    get_matching_blocks_aux_k0 a a _ a.length a.length a.length a.length
      (by rw [flm_rows_empty])
  unfold get_matching_blocks
  simp only [get_matching_blocks_aux, h1, h, Nat.zero_add, ite_false, hl, hr]
  simp [mergeBlocks, h]

theorem get_opcodes_self (a : List α) (h : a.length ≠ 0) :
    get_opcodes a a = [(OpTag.equal, 0, a.length, 0, a.length)] := by
  unfold get_opcodes
  rw [get_matching_blocks_self a h]
  simp [get_opcodes_aux, h]

end SelfMatch

theorem ndiff_self_eq (L : List Str) : ndiff L L = L.map (fun s => ' ' :: ' ' :: s) := by
  by_cases h : L.length = 0
  · have hL : L = [] := List.length_eq_zero.mp h
    subst hL
    decide
  · unfold ndiff
    rw [get_opcodes_self L h]
    simp only [List.foldr_cons, List.foldr_nil, List.append_nil]
    simp [dumpTag_full]

theorem count_ctx_zero (p : Str → Bool) (hp : ∀ s, p (' ' :: ' ' :: s) = false)
    (L : List Str) :
    ((L.map (fun s => ' ' :: ' ' :: s)).filter p).length = 0 := by
  have h : (L.map (fun s => ' ' :: ' ' :: s)).filter p = [] := by
    apply List.filter_eq_nil_iff.mpr
    intro x hx
    obtain ⟨s, _, rfl⟩ := List.mem_map.mp hx
    intro hcon
    rw [hp s] at hcon
    exact Bool.false_ne_true hcon
  rw [h]
  rfl

/-! ### Claim theorems: differ laws -/

/-- C5: the diff of any line sequence with itself consists solely of context
records (every line is emitted with the context prefix) and the derived
counts added, removed and hintCount are all zero. -/
theorem diff_identity_law (L : List Str) :
    ndiff L L = L.map (fun s => ' ' :: ' ' :: s) ∧
    countAdded (ndiff L L) = 0 ∧ countRemoved (ndiff L L) = 0 ∧
    countHints (ndiff L L) = 0 := by
  have hmain := ndiff_self_eq L
  refine ⟨hmain, ?_, ?_, ?_⟩ <;> rw [hmain]
  · exact count_ctx_zero _ (fun s => rfl) L
  · exact count_ctx_zero _ (fun s => rfl) L
  · exact count_ctx_zero _ (fun s => rfl) L

/-- C6: diff([],[]) is empty with all counts zero; diff([],["x"]) is exactly
one insertion of "x" with no hints; and a diff against an empty right side
consists solely of deletion records, one per line of the left side. -/
theorem diff_empty_boundary :
    ndiff ([] : List Str) [] = [] ∧
    countAdded (ndiff ([] : List Str) []) = 0 ∧
    countRemoved (ndiff ([] : List Str) []) = 0 ∧
    countHints (ndiff ([] : List Str) []) = 0 ∧
    ndiff [] [pstr "x"] = [pstr "+ x"] ∧
    countHints (ndiff [] [pstr "x"]) = 0 ∧
    ∀ a : List Str, ndiff a [] = a.map (fun s => '-' :: ' ' :: s) :=
  ⟨by decide, by decide, by decide, by decide, by decide, by decide, ndiff_nil_right⟩

theorem insDelPattern_ins (x : List Str) :
    insDelPattern (x.map (fun s => '+' :: ' ' :: s)) = x.map (fun _ => RecKind.ins) := by
  induction x with
  | nil => rfl
  | cons s t ih =>
    simp only [List.map_cons, insDelPattern, List.filter_cons] at ih ⊢
    rw [show recKind ('+' :: ' ' :: s) = RecKind.ins from rfl]
    simpa using ih

theorem insDelPattern_del (x : List Str) :
    insDelPattern (x.map (fun s => '-' :: ' ' :: s)) = x.map (fun _ => RecKind.del) := by
  induction x with
  | nil => rfl
  | cons s t ih =>
    simp only [List.map_cons, insDelPattern, List.filter_cons] at ih ⊢
    rw [show recKind ('-' :: ' ' :: s) = RecKind.del from rfl]
    simpa using ih

/-- C8 counterexample: for a = ["ab","cd"] and b = ["cd","ab"] (no hints on
either side), the Insertion/Deletion pattern of diff(a,b) with the two kinds
swapped does not equal the pattern of diff(b,a): the differ's deterministic
tie-breaking anchors the line matched earliest in the first sequence, which
differs between the two calls. -/
theorem diff_symmetry_cex :
    (insDelPattern (ndiff [pstr "ab", pstr "cd"] [pstr "cd", pstr "ab"])).map swapKind ≠
      insDelPattern (ndiff [pstr "cd", pstr "ab"] [pstr "ab", pstr "cd"]) ∧
    countHints (ndiff [pstr "ab", pstr "cd"] [pstr "cd", pstr "ab"]) = 0 ∧
    countHints (ndiff [pstr "cd", pstr "ab"] [pstr "ab", pstr "cd"]) = 0 := by
  decide

/-- C8 amended: the swap-symmetry law does hold in the one-sided cases: for
every a, diff(a, []) with deletion/insertion signs swapped equals
diff([], a) line for line, and hence the swapped Insertion/Deletion pattern
matches; for arbitrary pairs the law fails (`diff_symmetry_cex`). -/
theorem diff_symmetry_one_sided (a : List Str) :
    (ndiff a []).map swapSign = ndiff [] a ∧
    insDelPattern (ndiff [] a) = (insDelPattern (ndiff a [])).map swapKind := by
  constructor
  · rw [ndiff_nil_right, ndiff_nil_left, List.map_map]
    rfl
  · rw [ndiff_nil_right, ndiff_nil_left, insDelPattern_ins, insDelPattern_del,
      List.map_map]
    rfl

/-! ### Where produced diff lines take their text from -/

theorem mem_if_singleton {c : Prop} [Decidable c] {v s : Str}
    (h : s ∈ (if c then [v] else ([] : List Str))) : s = v := by
  split at h
  · simpa using h
  · simp at h

theorem mem_qformat {ae be ta tb s : Str} (h : s ∈ qformat ae be ta tb) :
    s = '-' :: ' ' :: ae ∨ s = '+' :: ' ' :: be ∨ ['?', ' '].isPrefixOf s = true := by
  unfold qformat at h
  rcases List.mem_append.mp h with h | h
  · rcases List.mem_append.mp h with h | h
    · rcases List.mem_append.mp h with h | h
      · left
        simpa using h
      · right; right
        rw [mem_if_singleton h]
        exact prefix_isPrefixOf_append _ _ _ (isPrefixOf_self_append _ _)
    · right; left
      simpa using h
  · right; right
    rw [mem_if_singleton h]
    exact prefix_isPrefixOf_append _ _ _ (isPrefixOf_self_append _ _)

theorem fancyScan_bounds (a b : List Str) (alo ahi blo bhi : Nat) :
    (∀ ei ej, (fancyScan a b alo ahi blo bhi).eqPair = some (ei, ej) →
      ei < ahi ∧ ej < bhi) ∧
    (4 * (fancyScan a b alo ahi blo bhi).num < 3 * (fancyScan a b alo ahi blo bhi).den ∨
      ((fancyScan a b alo ahi blo bhi).bi < ahi ∧ (fancyScan a b alo ahi blo bhi).bj < bhi)) := by
  unfold fancyScan
  apply foldl_invariant
    (fun st : FancyBest =>
      (∀ ei ej, st.eqPair = some (ei, ej) → ei < ahi ∧ ej < bhi) ∧
      (4 * st.num < 3 * st.den ∨ (st.bi < ahi ∧ st.bj < bhi)))
  · refine ⟨fun ei ej hco => absurd hco (by simp), Or.inl (by show 4 * 74 < 3 * 100; omega)⟩
  · intro st j hj hst
    have hjmem := List.mem_range'_1.mp hj
    apply foldl_invariant
      (fun st : FancyBest =>
        (∀ ei ej, st.eqPair = some (ei, ej) → ei < ahi ∧ ej < bhi) ∧
        (4 * st.num < 3 * st.den ∨ (st.bi < ahi ∧ st.bj < bhi))) _ _ _ hst
    intro st2 i hi hst2
    have himem := List.mem_range'_1.mp hi
    unfold fancyStep
    dsimp only
    split
    · split
      · refine ⟨?_, hst2.2⟩
        intro ei ej hco
        dsimp only at hco
        have hpair : (i, j) = (ei, ej) := Option.some.inj hco
        have hi2 : i = ei := congrArg Prod.fst hpair
        have hj2 : j = ej := congrArg Prod.snd hpair
        subst hi2
        subst hj2
        omega
      · exact hst2
    · split
      · refine ⟨fun ei ej hco => hst2.1 ei ej hco, Or.inr ⟨?_, ?_⟩⟩ <;> dsimp only <;> omega
      · exact hst2

theorem flm_bounds {α : Type} [DecidableEq α] (a b : List α) (alo ahi blo bhi : Nat) :
    (find_longest_match a b alo ahi blo bhi).2.2 ≠ 0 →
      alo ≤ (find_longest_match a b alo ahi blo bhi).1 ∧
      (find_longest_match a b alo ahi blo bhi).1 +
        (find_longest_match a b alo ahi blo bhi).2.2 ≤ ahi ∧
      blo ≤ (find_longest_match a b alo ahi blo bhi).2.1 ∧
      (find_longest_match a b alo ahi blo bhi).2.1 +
        (find_longest_match a b alo ahi blo bhi).2.2 ≤ bhi := by
  unfold find_longest_match
  apply foldl_invariant
    (fun st : Nat × Nat × Nat => st.2.2 ≠ 0 →
      alo ≤ st.1 ∧ st.1 + st.2.2 ≤ ahi ∧ blo ≤ st.2.1 ∧ st.2.1 + st.2.2 ≤ bhi)
  · intro hcon
    exact absurd rfl hcon
  · intro st i hi hst
    apply foldl_invariant
      (fun st : Nat × Nat × Nat => st.2.2 ≠ 0 →
        alo ≤ st.1 ∧ st.1 + st.2.2 ≤ ahi ∧ blo ≤ st.2.1 ∧ st.2.1 + st.2.2 ≤ bhi)
      _ _ _ hst
    intro st2 j hj hst2
    have himem := List.mem_range'_1.mp hi
    have hjmem := List.mem_range'_1.mp hj
    unfold flmStep
    dsimp only
    split
    · intro _
      have hr := runLen_le_row a b alo blo i j (by omega)
      have hc := runLen_le_col a b alo blo i j (by omega)
      refine ⟨?_, ?_, ?_, ?_⟩ <;> dsimp only <;> omega
    · exact hst2

theorem get_matching_blocks_aux_bounds {α : Type} [DecidableEq α] (a b : List α) :
    ∀ (fuel alo ahi blo bhi : Nat) (m : Nat × Nat × Nat),
      m ∈ get_matching_blocks_aux a b fuel alo ahi blo bhi →
      alo ≤ m.1 ∧ m.1 + m.2.2 ≤ ahi ∧ blo ≤ m.2.1 ∧ m.2.1 + m.2.2 ≤ bhi := by
  intro fuel
  induction fuel with
  | zero =>
    intro alo ahi blo bhi m hm
    simp [get_matching_blocks_aux] at hm
  | succ n ih =>
    intro alo ahi blo bhi m hm
    simp only [get_matching_blocks_aux] at hm
    split at hm
    · simp at hm
    · rename_i hk
      have hb := flm_bounds a b alo ahi blo bhi hk
      rcases List.mem_append.mp hm with h1 | h1
      · have h2 := ih alo _ blo _ m h1
        omega
      · rcases List.mem_cons.mp h1 with h2 | h2
        · subst h2
          exact hb
        · have h3 := ih _ ahi _ bhi m h2
          omega

theorem mergeBlocks_bounds (A B : Nat) :
    ∀ (blocks : List (Nat × Nat × Nat)) (acc : Nat × Nat × Nat),
      acc.1 + acc.2.2 ≤ A → acc.2.1 + acc.2.2 ≤ B →
      (∀ m ∈ blocks, m.1 + m.2.2 ≤ A ∧ m.2.1 + m.2.2 ≤ B) →
      ∀ m ∈ mergeBlocks acc blocks, m.1 + m.2.2 ≤ A ∧ m.2.1 + m.2.2 ≤ B := by
  intro blocks
  induction blocks with
  | nil =>
    intro acc ha hb hall m hm
    simp only [mergeBlocks] at hm
    split at hm
    · simp at hm
    · rw [List.mem_singleton] at hm
      subst hm
      exact ⟨ha, hb⟩
  | cons blk rest ih =>
    intro acc ha hb hall m hm
    have hblk := hall blk (List.mem_cons_self blk rest)
    simp only [mergeBlocks] at hm
    split at hm
    · rename_i hadj
      refine ih (acc.1, acc.2.1, acc.2.2 + blk.2.2) (by dsimp only; omega)
        (by dsimp only; omega)
        (fun m' hm' => hall m' (List.mem_cons_of_mem blk hm')) m hm
    · rcases List.mem_append.mp hm with h1 | h1
      · split at h1
        · simp at h1
        · rw [List.mem_singleton] at h1
          subst h1
          exact ⟨ha, hb⟩
      · exact ih blk hblk.1 hblk.2
          (fun m' hm' => hall m' (List.mem_cons_of_mem blk hm')) m h1

theorem get_matching_blocks_bounds {α : Type} [DecidableEq α] (a b : List α) :
    ∀ m ∈ get_matching_blocks a b,
      m.1 + m.2.2 ≤ a.length ∧ m.2.1 + m.2.2 ≤ b.length := by
  intro m hm
  unfold get_matching_blocks at hm
  rcases List.mem_append.mp hm with h1 | h1
  · exact mergeBlocks_bounds a.length b.length _ (0, 0, 0) (by simp) (by simp)
      (fun m' hm' => by
        have h2 := get_matching_blocks_aux_bounds a b _ 0 a.length 0 b.length m' hm'
        exact ⟨h2.2.1, h2.2.2.2⟩) m h1
  · rw [List.mem_singleton] at h1
    subst h1
    simp

theorem get_opcodes_aux_ranges (A B : Nat) :
    ∀ (blocks : List (Nat × Nat × Nat)) (i j : Nat),
      (∀ m ∈ blocks, m.1 + m.2.2 ≤ A ∧ m.2.1 + m.2.2 ≤ B) →
      ∀ op ∈ get_opcodes_aux i j blocks, op.2.2.1 ≤ A ∧ op.2.2.2.2 ≤ B := by
  intro blocks
  induction blocks with
  | nil =>
    intro i j h op hop
    simp [get_opcodes_aux] at hop
  | cons m rest ih =>
    intro i j h op hop
    have hm := h m (List.mem_cons_self m rest)
    simp only [get_opcodes_aux] at hop
    rcases List.mem_append.mp hop with h1 | hrec
    · rcases List.mem_append.mp h1 with hgap | heq
      · split at hgap
        · rw [List.mem_singleton] at hgap
          subst hgap
          refine ⟨?_, ?_⟩ <;> dsimp only <;> omega
        · split at hgap
          · rw [List.mem_singleton] at hgap
            subst hgap
            refine ⟨?_, ?_⟩ <;> dsimp only <;> omega
          · split at hgap
            · rw [List.mem_singleton] at hgap
              subst hgap
              refine ⟨?_, ?_⟩ <;> dsimp only <;> omega
            · simp at hgap
      · split at heq
        · rw [List.mem_singleton] at heq
          subst heq
          refine ⟨?_, ?_⟩ <;> dsimp only <;> omega
        · simp at heq
    · exact ih _ _ (fun m' hm' => h m' (List.mem_cons_of_mem m hm')) op hrec

theorem get_opcodes_ranges {α : Type} [DecidableEq α] (a b : List α) :
    ∀ op ∈ get_opcodes a b, op.2.2.1 ≤ a.length ∧ op.2.2.2.2 ≤ b.length :=
  fun op hop =>
    get_opcodes_aux_ranges a.length b.length _ 0 0 (get_matching_blocks_bounds a b) op hop

theorem fancyLoop_sources (a b : List Str) :
    ∀ (fuel : Nat) (helper : Bool) (alo ahi blo bhi : Nat),
      ahi ≤ a.length → bhi ≤ b.length →
      ∀ s ∈ fancyLoop a b fuel helper alo ahi blo bhi, lineSource a b s := by
  intro fuel
  induction fuel with
  | zero =>
    intro helper alo ahi blo bhi ha hb s hs
    simp [fancyLoop] at hs
  | succ n ih =>
    intro helper alo ahi blo bhi ha hb s hs
    simp only [fancyLoop] at hs
    cases helper with
    | true =>
      rw [if_pos rfl] at hs
      split at hs
      · split at hs
        · exact ih false alo ahi blo bhi ha hb s hs
        · obtain ⟨u, hu, rfl⟩ := mem_dumpTag hs
          exact Or.inr (Or.inl ⟨u, hu, Or.inl rfl⟩)
      · split at hs
        · obtain ⟨u, hu, rfl⟩ := mem_dumpTag hs
          exact Or.inr (Or.inr ⟨u, hu, rfl⟩)
        · simp at hs
    | false =>
      rw [if_neg (by simp)] at hs
      have hsc := fancyScan_bounds a b alo ahi blo bhi
      split at hs
      · rcases heq : (fancyScan a b alo ahi blo bhi).eqPair with _ | ⟨ei, ej⟩
        · rw [heq] at hs
          simp only [Option.elim] at hs
          unfold plain_replace at hs
          split at hs
          · rcases List.mem_append.mp hs with h1 | h1
            · obtain ⟨u, hu, rfl⟩ := mem_dumpTag h1
              exact Or.inr (Or.inr ⟨u, hu, rfl⟩)
            · obtain ⟨u, hu, rfl⟩ := mem_dumpTag h1
              exact Or.inr (Or.inl ⟨u, hu, Or.inl rfl⟩)
          · rcases List.mem_append.mp hs with h1 | h1
            · obtain ⟨u, hu, rfl⟩ := mem_dumpTag h1
              exact Or.inr (Or.inl ⟨u, hu, Or.inl rfl⟩)
            · obtain ⟨u, hu, rfl⟩ := mem_dumpTag h1
              exact Or.inr (Or.inr ⟨u, hu, rfl⟩)
        · rw [heq] at hs
          simp only [Option.elim] at hs
          have hei := (hsc.1 ei ej heq).1
          have hej := (hsc.1 ei ej heq).2
          rcases List.mem_append.mp hs with h1 | h1
          · exact ih true alo ei blo ej ((Nat.le_of_lt hei).trans ha)
              ((Nat.le_of_lt hej).trans hb) s h1
          · rcases List.mem_cons.mp h1 with h2 | h2
            · have heia : ei < a.length := lt_of_lt_of_le hei ha
              have hget : a.get? ei = some (a.get ⟨ei, heia⟩) := List.get?_eq_get heia
              subst h2
              refine Or.inr (Or.inl ⟨a.get ⟨ei, heia⟩, List.get_mem a ei heia, Or.inr ?_⟩)
              rw [hget]
              rfl
            · exact ih true (ei + 1) ahi (ej + 1) bhi ha hb s h2
      · rename_i hnc
        have hbb := hsc.2.resolve_left hnc
        have hbia : (fancyScan a b alo ahi blo bhi).bi < a.length :=
          lt_of_lt_of_le hbb.1 ha
        have hbjb : (fancyScan a b alo ahi blo bhi).bj < b.length :=
          lt_of_lt_of_le hbb.2 hb
        rcases List.mem_append.mp hs with h1 | h2
        · rcases List.mem_append.mp h1 with hL | hQ
          · exact ih true alo _ blo _ ((Nat.le_of_lt hbb.1).trans ha)
              ((Nat.le_of_lt hbb.2).trans hb) s hL
          · rcases mem_qformat hQ with h3 | h3 | h3
            · have hget : a.get? (fancyScan a b alo ahi blo bhi).bi =
                  some (a.get ⟨_, hbia⟩) := List.get?_eq_get hbia
              refine Or.inr (Or.inl ⟨a.get ⟨_, hbia⟩, List.get_mem a _ hbia, Or.inl ?_⟩)
              rw [h3, hget]
              rfl
            · have hget : b.get? (fancyScan a b alo ahi blo bhi).bj =
                  some (b.get ⟨_, hbjb⟩) := List.get?_eq_get hbjb
              refine Or.inr (Or.inr ⟨b.get ⟨_, hbjb⟩, List.get_mem b _ hbjb, ?_⟩)
              rw [h3, hget]
              rfl
            · exact Or.inl h3
        · exact ih true _ ahi _ bhi ha hb s h2

theorem ndiff_sources (a b : List Str) : ∀ s ∈ ndiff a b, lineSource a b s := by
  intro s hs
  unfold ndiff at hs
  rw [mem_foldr_append] at hs
  obtain ⟨op, hop, hmem⟩ := hs
  have hrange := get_opcodes_ranges a b op hop
  rcases op with ⟨tag, alo, ahi, blo, bhi⟩
  cases tag with
  | replace =>
    unfold fancy_replace at hmem
    exact fancyLoop_sources a b _ false alo ahi blo bhi hrange.1 hrange.2 s hmem
  | delete =>
    obtain ⟨u, hu, rfl⟩ := mem_dumpTag hmem
    exact Or.inr (Or.inl ⟨u, hu, Or.inl rfl⟩)
  | insert =>
    obtain ⟨u, hu, rfl⟩ := mem_dumpTag hmem
    exact Or.inr (Or.inr ⟨u, hu, rfl⟩)
  | equal =>
    obtain ⟨u, hu, rfl⟩ := mem_dumpTag hmem
    exact Or.inr (Or.inl ⟨u, hu, Or.inr rfl⟩)

/-- C1 counterexample: with ignoreCase set and both input files equal to the
single line "AB", the only displayed/saved record is "  ab" (plus the stored
newline), whose carried text "ab" is the casefolded text and is not the text
of any original input line. -/
theorem display_not_original_cex :
    last_diff_lines [pstr "AB"] [pstr "AB"] true false = [pstr "  ab\n"] ∧
    ¬ pstr "ab" ∈ [pstr "AB"] ∧ pstr "  ab\n" ≠ pstr "  AB\n" := by
  decide

/-- C1 amended: the text carried by every displayed and exported record is
drawn from the normalized sequences, not the original ones: every stored
diff line is an intraline hint or carries a line of normalize(A) (context
and deletion records) or of normalize(B) (insertion records). -/
theorem displayed_text_is_normalized (l1 l2 : List Str) (ic iw : Bool) :
    ∀ s ∈ last_diff_lines l1 l2 ic iw,
      ['?', ' '].isPrefixOf s = true ∨
      (∃ t ∈ normalize_lines l1 ic iw,
        s = ('-' :: ' ' :: t) ++ ['\n'] ∨ s = (' ' :: ' ' :: t) ++ ['\n']) ∨
      (∃ t ∈ normalize_lines l2 ic iw, s = ('+' :: ' ' :: t) ++ ['\n']) := by
  intro s hs
  unfold last_diff_lines at hs
  obtain ⟨line, hline, rfl⟩ := List.mem_map.mp hs
  rcases ndiff_sources _ _ line hline with h | ⟨t, ht, h | h⟩ | ⟨t, ht, h⟩
  · exact Or.inl (prefix_isPrefixOf_append _ _ _ h)
  · exact Or.inr (Or.inl ⟨t, ht, Or.inl (by rw [h])⟩)
  · exact Or.inr (Or.inl ⟨t, ht, Or.inr (by rw [h])⟩)
  · exact Or.inr (Or.inr ⟨t, ht, by rw [h]⟩)

/-- Witness for the amended C1 at concrete inputs. -/
theorem displayed_text_is_normalized_witness :
    ['?', ' '].isPrefixOf (pstr "  ab\n") = true ∨
    (∃ t ∈ normalize_lines [pstr "AB"] true false,
      pstr "  ab\n" = ('-' :: ' ' :: t) ++ ['\n'] ∨
      pstr "  ab\n" = (' ' :: ' ' :: t) ++ ['\n']) ∨
    (∃ t ∈ normalize_lines [pstr "AB"] true false,
      pstr "  ab\n" = ('+' :: ' ' :: t) ++ ['\n']) :=
  displayed_text_is_normalized [pstr "AB"] [pstr "AB"] true false (pstr "  ab\n")
    (by decide)

/-- Witness for C9 at a concrete state and path. -/
theorem save_failure_preserves_state_witness :
    (save_diff ⟨[pstr "- x\n"], pstr "ok"⟩ (some (pstr "o.diff")) false).1.last_diff =
        [pstr "- x\n"] ∧
    (save_diff ⟨[pstr "- x\n"], pstr "ok"⟩ (some (pstr "o.diff")) false).1 =
        ⟨[pstr "- x\n"], pstr "ok"⟩ ∧
    (save_diff ⟨[pstr "- x\n"], pstr "ok"⟩ (some (pstr "o.diff")) false).2 =
        [Dialog.error (pstr "Save error") (pstr "Could not save diff")] :=
  save_failure_preserves_state ⟨[pstr "- x\n"], pstr "ok"⟩ (some (pstr "o.diff"))
    false (pstr "o.diff") (by decide)

/-! ### The source normalizer agrees with the spec wording -/

theorem dropWhile_all_false (p : Char → Bool) (l : Str) (h : ∀ d ∈ l, p d = false) :
    l.dropWhile p = l := by
  cases l with
  | nil => rfl
  | cons d t => rw [List.dropWhile_cons, h d (List.mem_cons_self d t)]; simp

theorem dropWhile_append_of_exists (p : Char → Bool) (t l : Str)
    (h : ∃ u ∈ t, p u = false) :
    (t ++ l).dropWhile p = t.dropWhile p ++ l := by
  induction t with
  | nil => simp at h
  | cons d t' ih =>
    cases hd : p d with
    | true =>
      rw [List.cons_append, List.dropWhile_cons, List.dropWhile_cons, hd]
      simp only [if_true]
      apply ih
      obtain ⟨u, hu, hup⟩ := h
      rcases List.mem_cons.mp hu with rfl | hu'
      · rw [hd] at hup
        exact absurd hup (by simp)
      · exact ⟨u, hu', hup⟩
    | false =>
      rw [List.cons_append, List.dropWhile_cons, List.dropWhile_cons, hd]
      simp

theorem rstripWs_append_of_exists (l t : Str) (h : ∃ u ∈ t, isPySpace u = false) :
    rstripWs (l ++ t) = l ++ rstripWs t := by
  unfold rstripWs
  rw [List.reverse_append]
  rw [dropWhile_append_of_exists _ _ _ (by
    obtain ⟨u, hu, hup⟩ := h
    exact ⟨u, List.mem_reverse.mpr hu, hup⟩)]
  rw [List.reverse_append, List.reverse_reverse]

theorem rstripWs_nonws (l : Str) (h : ∀ d ∈ l, isPySpace d = false) :
    rstripWs l = l := by
  unfold rstripWs
  rw [dropWhile_all_false _ _ (fun d hd => h d (List.mem_reverse.mp hd))]
  exact List.reverse_reverse l

theorem rstripWs_append_space (l : Str) : rstripWs (l ++ [' ']) = rstripWs l := by
  unfold rstripWs
  rw [List.reverse_append]
  simp only [List.reverse_cons, List.reverse_nil, List.nil_append, List.cons_append,
    List.nil_append]
  rw [List.dropWhile_cons]
  simp [isPySpace]

theorem squeeze_false_ws (c : Char) (r : Str) (hc : isPySpace c = true) :
    squeeze false (c :: r) = ' ' :: squeeze true r := by
  simp [squeeze, hc]

theorem squeeze_true_ws (c : Char) (r : Str) (hc : isPySpace c = true) :
    squeeze true (c :: r) = squeeze true r := by
  simp [squeeze, hc]

theorem squeeze_cons_nonws (prev : Bool) (c : Char) (r : Str) (hc : isPySpace c = false) :
    squeeze prev (c :: r) = c :: squeeze false r := by
  simp [squeeze, hc]

theorem pyWords_nil : pyWords ([] : Str) = [] := by
  simp [pyWords]

theorem pyWords_cons_ws (c : Char) (r : Str) (hc : isPySpace c = true) :
    pyWords (c :: r) = pyWords r := by
  simp [pyWords, hc]

theorem pyWords_cons_nonws (c : Char) (r : Str) (hc : isPySpace c = false) :
    pyWords (c :: r) =
      (c :: r.takeWhile (fun d => !isPySpace d)) ::
        pyWords (r.dropWhile (fun d => !isPySpace d)) := by
  simp [pyWords, hc]

theorem squeeze_true_no_leading_ws (s : Str) :
    (squeeze true s).dropWhile isPySpace = squeeze true s := by
  induction s with
  | nil => rfl
  | cons c r ih =>
    cases hc : isPySpace c with
    | true => rw [squeeze_true_ws c r hc]; exact ih
    | false => rw [squeeze_cons_nonws true c r hc, List.dropWhile_cons, hc]; simp

theorem squeeze_true_eq_lstrip (s : Str) :
    squeeze true s = (squeeze false s).dropWhile isPySpace := by
  cases s with
  | nil => rfl
  | cons c r =>
    cases hc : isPySpace c with
    | true =>
      rw [squeeze_true_ws c r hc, squeeze_false_ws c r hc, List.dropWhile_cons]
      rw [show isPySpace ' ' = true from rfl]
      simp only [if_true]
      exact (squeeze_true_no_leading_ws r).symm
    | false =>
      rw [squeeze_cons_nonws true c r hc, squeeze_cons_nonws false c r hc,
        List.dropWhile_cons, hc]
      simp

theorem squeeze_nonws_left (w t : Str) (hw : ∀ d ∈ w, isPySpace d = false) :
    squeeze false (w ++ t) = w ++ squeeze false t := by
  induction w with
  | nil => rfl
  | cons d w' ih =>
    rw [List.cons_append, squeeze_cons_nonws false d _ (hw d (List.mem_cons_self d w'))]
    rw [ih (fun e he => hw e (List.mem_cons_of_mem d he))]
    rfl

theorem squeeze_true_of_pyWords_nil (s : Str) (h : pyWords s = []) :
    squeeze true s = [] := by
  induction s with
  | nil => rfl
  | cons c r ih =>
    cases hc : isPySpace c with
    | true =>
      rw [pyWords_cons_ws c r hc] at h
      rw [squeeze_true_ws c r hc]
      exact ih h
    | false =>
      rw [pyWords_cons_nonws c r hc] at h
      exact absurd h (by simp)

theorem squeeze_true_has_nonws (s : Str) (h : pyWords s ≠ []) :
    ∃ u ∈ squeeze true s, isPySpace u = false := by
  induction s with
  | nil => exact absurd pyWords_nil h
  | cons c r ih =>
    cases hc : isPySpace c with
    | true =>
      rw [pyWords_cons_ws c r hc] at h
      rw [squeeze_true_ws c r hc]
      exact ih h
    | false =>
      rw [squeeze_cons_nonws true c r hc]
      exact ⟨c, List.mem_cons_self _ _, hc⟩

theorem head_dropWhile_false (p : Char → Bool) (l : Str) :
    ∀ d r, l.dropWhile p = d :: r → p d = false := by
  induction l with
  | nil => intro d r h; simp at h
  | cons c t ih =>
    intro d r h
    rw [List.dropWhile_cons] at h
    split at h
    · exact ih d r h
    · rename_i hc
      have hd : c = d := (List.cons.inj h).1
      subst hd
      simpa using hc

theorem join_words_eq_collapse_aux :
    ∀ (n : Nat) (s : Str), s.length ≤ n → joinSp (pyWords s) = specCollapse s := by
  intro n
  induction n with
  | zero =>
    intro s hs
    have h0 : s = [] := List.length_eq_zero.mp (Nat.le_zero.mp hs)
    subst h0
    rw [pyWords_nil]
    rfl
  | succ n ih =>
    intro s hs
    cases s with
    | nil =>
      rw [pyWords_nil]
      rfl
    | cons c r =>
      have hr : r.length ≤ n := by
        simp only [List.length_cons] at hs
        omega
      cases hc : isPySpace c with
      | true =>
        rw [pyWords_cons_ws c r hc]
        rw [ih r hr]
        unfold specCollapse lstripWs
        rw [squeeze_false_ws c r hc]
        rw [List.dropWhile_cons]
        rw [show isPySpace ' ' = true from rfl]
        simp only [if_true]
        rw [squeeze_true_no_leading_ws, squeeze_true_eq_lstrip]
      | false =>
        have hw : ∀ d ∈ r.takeWhile (fun d => !isPySpace d), isPySpace d = false := by
          intro d hd
          have := List.mem_takeWhile_imp hd
          simpa using this
        have hcw : ∀ d ∈ c :: r.takeWhile (fun d => !isPySpace d), isPySpace d = false := by
          intro d hd
          rcases List.mem_cons.mp hd with rfl | hd'
          · exact hc
          · exact hw d hd'
        have hsplit : r = r.takeWhile (fun d => !isPySpace d) ++
            r.dropWhile (fun d => !isPySpace d) :=
          (List.takeWhile_append_dropWhile _ _).symm
        have hlstrip : lstripWs (squeeze false (c :: r)) =
            c :: (r.takeWhile (fun d => !isPySpace d) ++
              squeeze false (r.dropWhile (fun d => !isPySpace d))) := by
          rw [squeeze_cons_nonws false c r hc]
          conv_lhs => rw [hsplit]
          rw [squeeze_nonws_left _ _ hw]
          unfold lstripWs
          rw [List.dropWhile_cons, hc]
          simp
        unfold specCollapse
        rw [hlstrip, pyWords_cons_nonws c r hc]
        rcases hnil : pyWords (r.dropWhile (fun d => !isPySpace d)) with _ | ⟨w1, ws1⟩
        · -- no further words
          rcases hr' : r.dropWhile (fun d => !isPySpace d) with _ | ⟨d, t⟩
          · rw [show squeeze false ([] : Str) = [] from rfl]
            rw [List.append_nil]
            rw [rstripWs_nonws _ hcw]
            rfl
          · have hd : isPySpace d = true := by
              have := head_dropWhile_false (fun d => !isPySpace d) r d t hr'
              simpa using this
            have htr : squeeze true t = [] := by
              apply squeeze_true_of_pyWords_nil
              rw [hr'] at hnil
              rw [pyWords_cons_ws d t hd] at hnil
              exact hnil
            rw [squeeze_false_ws d t hd]
            rw [htr]
            rw [show (c :: (r.takeWhile (fun d => !isPySpace d) ++ [' '])) =
              (c :: r.takeWhile (fun d => !isPySpace d)) ++ [' '] from rfl]
            rw [rstripWs_append_space, rstripWs_nonws _ hcw]
            rfl
        · -- at least one further word
          rcases hr' : r.dropWhile (fun d => !isPySpace d) with _ | ⟨d, t⟩
          · rw [hr', pyWords_nil] at hnil
            exact absurd hnil (by simp)
          · have hd : isPySpace d = true := by
              have := head_dropWhile_false (fun d => !isPySpace d) r d t hr'
              simpa using this
            have hnil2 : pyWords t = w1 :: ws1 := by
              rw [hr', pyWords_cons_ws d t hd] at hnil
              exact hnil
            have htlen : t.length ≤ n := by
              have h2 : (r.dropWhile (fun d => !isPySpace d)).length ≤ r.length :=
                (List.dropWhile_suffix _).length_le
              rw [hr'] at h2
              simp only [List.length_cons] at h2
              omega
            have hih : joinSp (pyWords t) = rstripWs (squeeze true t) := by
              rw [ih t htlen]
              unfold specCollapse lstripWs
              rw [squeeze_true_eq_lstrip]
            have hex : ∃ u ∈ squeeze true t, isPySpace u = false := by
              apply squeeze_true_has_nonws
              rw [hnil2]
              simp
            rw [squeeze_false_ws d t hd]
            rw [show joinSp ((c :: r.takeWhile (fun d => !isPySpace d)) :: w1 :: ws1) =
              (c :: r.takeWhile (fun d => !isPySpace d)) ++ ' ' :: joinSp (w1 :: ws1)
              from rfl]
            rw [← hnil2, hih]
            rw [show (c :: (r.takeWhile (fun d => !isPySpace d) ++ ' ' :: squeeze true t)) =
              ((c :: r.takeWhile (fun d => !isPySpace d)) ++ [' ']) ++ squeeze true t by
              rw [List.append_cons]
              rfl]
            rw [rstripWs_append_of_exists _ _ hex]
            simp

/-- C2: the source normalizer (`" ".join(s.split())` then `casefold`) maps
each line exactly as the spec words it: with ignoreWhitespace, every maximal
whitespace run is replaced by one space and the ends are stripped; with
ignoreCase, the result is then folded with the platform Unicode case
folding, which is not ASCII-only lowercasing (the sharp s folds to "ss"). -/
theorem normalize_matches_spec_contract :
    (∀ (line : Str) (ic iw : Bool),
      normalize_line line ic iw = specNormalizeLine line ic iw) ∧
    caseFold (pstr "ß") = pstr "ss" ∧
    caseFold (pstr "ß") ≠ (pstr "ß").map Char.toLower := by
  refine ⟨?_, by decide, by decide⟩
  intro line ic iw
  cases iw with
  | false => rfl
  | true =>
    have h := join_words_eq_collapse_aux line.length line (Nat.le_refl _)
    cases ic with
    | false =>
      show joinSp (pyWords line) = specCollapse line
      exact h
    | true =>
      show caseFold (joinSp (pyWords line)) = caseFold (specCollapse line)
      rw [h]

/-! ### Idempotence of the normalizer -/

theorem caseFold_cons (c : Char) (s : Str) :
    caseFold (c :: s) = foldChar c ++ caseFold s := rfl

theorem caseFold_append (s t : Str) :
    caseFold (s ++ t) = caseFold s ++ caseFold t := by
  unfold caseFold
  rw [List.map_append, List.flatten_append]

theorem caseFold_single (c : Char) : caseFold [c] = foldChar c := by
  rw [show ([c] : Str) = c :: [] from rfl, caseFold_cons]
  show foldChar c ++ [] = foldChar c
  exact List.append_nil _

theorem foldChar_spec (c : Char) :
    foldChar c = [c] ∨ ∃ p ∈ foldTable, p.1 = c ∧ foldChar c = p.2 := by
  unfold foldChar
  cases hf : foldTable.find? (fun p => p.1 == c) with
  | none => left; rfl
  | some p =>
    right
    refine ⟨p, List.mem_of_find?_eq_some hf, ?_, rfl⟩
    have h2 := List.find?_some hf
    simpa using h2

theorem foldTable_outputs_folded : ∀ p ∈ foldTable, caseFold p.2 = p.2 := by decide

theorem foldTable_outputs_nonempty : ∀ p ∈ foldTable, p.2 ≠ [] := by decide

theorem foldTable_outputs_nonws : ∀ p ∈ foldTable, ∀ d ∈ p.2, isPySpace d = false := by
  decide

theorem foldTable_keys_nonws : ∀ p ∈ foldTable, isPySpace p.1 = false := by decide

theorem foldChar_folded (c : Char) : caseFold (foldChar c) = foldChar c := by
  rcases foldChar_spec c with h1 | ⟨p, hp, _, h2⟩
  · rw [h1, caseFold_single, h1]
  · rw [h2]
    exact foldTable_outputs_folded p hp

theorem foldChar_ne_nil (c : Char) : foldChar c ≠ [] := by
  rcases foldChar_spec c with h1 | ⟨p, hp, _, h2⟩
  · rw [h1]
    simp
  · rw [h2]
    exact foldTable_outputs_nonempty p hp

theorem foldChar_nonws (c : Char) (hc : isPySpace c = false) :
    ∀ d ∈ foldChar c, isPySpace d = false := by
  rcases foldChar_spec c with h1 | ⟨p, hp, _, h2⟩
  · rw [h1]
    intro d hd
    rw [List.mem_singleton] at hd
    subst hd
    exact hc
  · rw [h2]
    exact foldTable_outputs_nonws p hp

theorem foldChar_ws (c : Char) (hc : isPySpace c = true) : foldChar c = [c] := by
  rcases foldChar_spec c with h1 | ⟨p, hp, hpc, h2⟩
  · exact h1
  · exfalso
    have h3 := foldTable_keys_nonws p hp
    rw [hpc, hc] at h3
    exact absurd h3 (by simp)

theorem caseFold_idem (s : Str) : caseFold (caseFold s) = caseFold s := by
  induction s with
  | nil => rfl
  | cons c t ih => rw [caseFold_cons, caseFold_append, foldChar_folded, ih]

theorem takeWhile_all (p : Char → Bool) (l : Str) (h : ∀ d ∈ l, p d = true) :
    l.takeWhile p = l := by
  induction l with
  | nil => rfl
  | cons c t ih =>
    rw [List.takeWhile_cons, h c (List.mem_cons_self c t)]
    simp only [if_true]
    rw [ih (fun d hd => h d (List.mem_cons_of_mem c hd))]

theorem dropWhile_all (p : Char → Bool) (l : Str) (h : ∀ d ∈ l, p d = true) :
    l.dropWhile p = [] := by
  induction l with
  | nil => rfl
  | cons c t ih =>
    rw [List.dropWhile_cons, h c (List.mem_cons_self c t)]
    simp only [if_true]
    exact ih (fun d hd => h d (List.mem_cons_of_mem c hd))

theorem takeWhile_stop (w : Str) (x : Char) (t : Str)
    (hw : ∀ d ∈ w, isPySpace d = false) (hx : isPySpace x = true) :
    (w ++ x :: t).takeWhile (fun d => !isPySpace d) = w := by
  induction w with
  | nil =>
    rw [List.nil_append, List.takeWhile_cons, hx]
    simp
  | cons d w' ih =>
    rw [List.cons_append, List.takeWhile_cons, hw d (List.mem_cons_self d w')]
    simp only [Bool.not_false, if_true]
    rw [ih (fun e he => hw e (List.mem_cons_of_mem d he))]

theorem dropWhile_stop (w : Str) (x : Char) (t : Str)
    (hw : ∀ d ∈ w, isPySpace d = false) (hx : isPySpace x = true) :
    (w ++ x :: t).dropWhile (fun d => !isPySpace d) = x :: t := by
  induction w with
  | nil =>
    rw [List.nil_append, List.dropWhile_cons, hx]
    simp
  | cons d w' ih =>
    rw [List.cons_append, List.dropWhile_cons, hw d (List.mem_cons_self d w')]
    simp only [Bool.not_false, if_true]
    exact ih (fun e he => hw e (List.mem_cons_of_mem d he))

theorem pyWords_valid_aux :
    ∀ (n : Nat) (s : Str), s.length ≤ n →
      ∀ w ∈ pyWords s, w ≠ [] ∧ ∀ d ∈ w, isPySpace d = false := by
  intro n
  induction n with
  | zero =>
    intro s hs w hw
    have h0 : s = [] := List.length_eq_zero.mp (Nat.le_zero.mp hs)
    subst h0
    rw [pyWords_nil] at hw
    simp at hw
  | succ n ih =>
    intro s hs w hw
    cases s with
    | nil =>
      rw [pyWords_nil] at hw
      simp at hw
    | cons c r =>
      have hr : r.length ≤ n := by
        simp only [List.length_cons] at hs
        omega
      cases hc : isPySpace c with
      | true =>
        rw [pyWords_cons_ws c r hc] at hw
        exact ih r hr w hw
      | false =>
        rw [pyWords_cons_nonws c r hc] at hw
        rcases List.mem_cons.mp hw with rfl | hw'
        · refine ⟨by simp, ?_⟩
          intro d hd
          rcases List.mem_cons.mp hd with rfl | hd'
          · exact hc
          · have := List.mem_takeWhile_imp hd'
            simpa using this
        · have hlen : (r.dropWhile (fun d => !isPySpace d)).length ≤ n :=
            le_trans (List.dropWhile_suffix _).length_le hr
          exact ih _ hlen w hw'

theorem pyWords_valid (s : Str) :
    ∀ w ∈ pyWords s, w ≠ [] ∧ ∀ d ∈ w, isPySpace d = false :=
  pyWords_valid_aux s.length s (Nat.le_refl _)

theorem pyWords_join (W : List Str)
    (hW : ∀ w ∈ W, w ≠ [] ∧ ∀ d ∈ w, isPySpace d = false) :
    pyWords (joinSp W) = W := by
  induction W with
  | nil => exact pyWords_nil
  | cons w ws ih =>
    obtain ⟨hne, hnws⟩ := hW w (List.mem_cons_self w ws)
    obtain ⟨c, w', rfl⟩ := List.exists_cons_of_ne_nil hne
    have hc : isPySpace c = false := hnws c (List.mem_cons_self c w')
    have hw' : ∀ d ∈ w', isPySpace d = false :=
      fun d hd => hnws d (List.mem_cons_of_mem c hd)
    cases ws with
    | nil =>
      rw [show joinSp [c :: w'] = c :: w' from rfl]
      rw [pyWords_cons_nonws c w' hc]
      rw [takeWhile_all _ _ (fun d hd => by rw [hw' d hd]; rfl)]
      rw [dropWhile_all _ _ (fun d hd => by rw [hw' d hd]; rfl)]
      rw [pyWords_nil]
    | cons w2 ws2 =>
      rw [show joinSp ((c :: w') :: w2 :: ws2) =
        (c :: w') ++ ' ' :: joinSp (w2 :: ws2) from rfl]
      rw [List.cons_append]
      rw [pyWords_cons_nonws c _ hc]
      rw [takeWhile_stop w' ' ' _ hw' rfl]
      rw [dropWhile_stop w' ' ' _ hw' rfl]
      rw [pyWords_cons_ws ' ' _ rfl]
      rw [ih (fun v hv => hW v (List.mem_cons_of_mem _ hv))]

theorem caseFold_joinSp (W : List Str) :
    caseFold (joinSp W) = joinSp (W.map caseFold) := by
  induction W with
  | nil => rfl
  | cons w ws ih =>
    cases ws with
    | nil => rfl
    | cons w2 ws2 =>
      rw [show joinSp (w :: w2 :: ws2) = w ++ ' ' :: joinSp (w2 :: ws2) from rfl]
      rw [caseFold_append, caseFold_cons, foldChar_ws ' ' rfl, ih]
      rfl

theorem caseFold_word_valid (w : Str) (hne : w ≠ [])
    (hnws : ∀ d ∈ w, isPySpace d = false) :
    caseFold w ≠ [] ∧ ∀ d ∈ caseFold w, isPySpace d = false := by
  constructor
  · obtain ⟨c, t, rfl⟩ := List.exists_cons_of_ne_nil hne
    rw [caseFold_cons]
    intro hcon
    exact foldChar_ne_nil c (List.append_eq_nil.mp hcon).1
  · intro d hd
    unfold caseFold at hd
    rw [List.mem_flatten] at hd
    obtain ⟨l, hl, hdl⟩ := hd
    obtain ⟨c, hc, rfl⟩ := List.mem_map.mp hl
    exact foldChar_nonws c (hnws c hc) d hdl

/-- C4: the normalizer is idempotent: normalizing an already-normalized
sequence with the same options leaves it unchanged, for every input and
every combination of the two flags. -/
theorem normalize_idempotent (L : List Str) (ic iw : Bool) :
    normalize_lines (normalize_lines L ic iw) ic iw = normalize_lines L ic iw := by
  unfold normalize_lines
  rw [List.map_map]
  apply List.map_congr_left
  intro line _
  show normalize_line (normalize_line line ic iw) ic iw = normalize_line line ic iw
  cases ic with
  | false =>
    cases iw with
    | false => rfl
    | true =>
      show joinSp (pyWords (joinSp (pyWords line))) = joinSp (pyWords line)
      rw [pyWords_join (pyWords line) (pyWords_valid line)]
  | true =>
    cases iw with
    | false =>
      show caseFold (caseFold line) = caseFold line
      exact caseFold_idem line
    | true =>
      show caseFold (joinSp (pyWords (caseFold (joinSp (pyWords line))))) =
        caseFold (joinSp (pyWords line))
      have hin : caseFold (joinSp (pyWords line)) =
          joinSp ((pyWords line).map caseFold) := caseFold_joinSp _
      rw [hin]
      rw [pyWords_join ((pyWords line).map caseFold) (by
        intro w hw
        obtain ⟨v, hv, rfl⟩ := List.mem_map.mp hw
        obtain ⟨hne2, hnws2⟩ := pyWords_valid line v hv
        exact caseFold_word_valid v hne2 hnws2)]
      rw [← hin]
      exact caseFold_idem _

end FileDiff
